import Mathlib

/-!
Verification of the document text-extraction-and-retrieval pipeline of this
repository against its specification.

The development shallowly embeds the two pipeline variants found in the
sources:

* the Streamlit variant (`app.py`): `DocumentProcessor.extract_text_from_pdf`
  / `extract_text_from_docx`, `DocumentProcessor.analyze_text_content`,
  `SearchEngine.semantic_keyword_search`,
  `MeetSearchApplication.handle_file_upload` and the ZIP-entry collection of
  `render_upload_section`;
* the Gradio variant (`AI_Scanner.app.py`): `extract_text_pdf` /
  `extract_text_docx`, `process_upload` and `search_docs`.

Modelling conventions:

* Python strings are Lean `String`s; all computations are carried out on
  their underlying `List Char` so that every definition is structurally
  recursive and kernel-computable.
* Python floats are modelled by exact rationals (`ℚ`); the numeric
  properties checked here (positivity, ordering, exceeding 1) are robust to
  this choice.
* The third-party parsing libraries (PyPDF2, python-docx, fitz) are
  abstracted, as the spec directs, into a parse outcome
  `Except String String` carried by each file: either the extracted text of
  the document or the exception message the parser would raise.  Page and
  paragraph joining is folded into that outcome.
* `str.lower()` is modelled on ASCII letters, which is also what the
  word-extraction regular expression `[a-zA-Z]{2,}` of the source covers.
* UI rendering (HTML assembly, progress bars, `st.markdown`) is not part of
  the embedded state; user-surfaced error line-items (`st.error`, the
  markdown error section) are modelled as the error-string lists the source
  builds them from.
-/

/-- ASCII model of Python `str.lower` on a single character. -/
def lowerChar (c : Char) : Char :=
  if 'A' ≤ c ∧ c ≤ 'Z' then Char.ofNat (c.toNat + 32) else c

/-- Python whitespace (the characters `str.split`/`str.strip` split on). -/
def wsB (c : Char) : Bool :=
  c == ' ' || c == '\t' || c == '\n' || c == '\r' || c == '\x0b' || c == '\x0c'

def nonWsB (c : Char) : Bool := !(wsB c)

def isAlphaB (c : Char) : Bool :=
  ('a' ≤ c && c ≤ 'z') || ('A' ≤ c && c ≤ 'Z')

/-- Sentence separators of `analyze_text_content`: the regex class `[.!?]`. -/
def isSentSepB (c : Char) : Bool := c == '.' || c == '!' || c == '?'

def lowerL (l : List Char) : List Char := l.map lowerChar

/-- Python `str.strip` (both ends) on a character list. -/
def dropEndWhile (p : Char → Bool) (l : List Char) : List Char :=
  (l.reverse.dropWhile p).reverse

def pyStrip (l : List Char) : List Char := dropEndWhile wsB (l.dropWhile wsB)

def pyStripStr (s : String) : String := String.mk (pyStrip s.data)

/-- Maximal runs of characters satisfying `p` (used for `str.split()` with
no argument, and for the `[a-zA-Z]{2,}` word regex). -/
def runsAux (p : Char → Bool) (cur : List Char) : List Char → List (List Char)
  | [] => if cur = [] then [] else [cur.reverse]
  | c :: cs =>
    if p c then runsAux p (c :: cur) cs
    else if cur = [] then runsAux p [] cs else cur.reverse :: runsAux p [] cs

def runsOf (p : Char → Bool) (l : List Char) : List (List Char) :=
  runsAux p [] l

/-- Pieces of `l` between separator characters (model of `re.split` on a
single-character class; empty pieces are kept, as `re.split` keeps them). -/
def piecesAux (p : Char → Bool) : List Char → List (List Char)
  | [] => [[]]
  | c :: cs =>
    match piecesAux p cs with
    | [] => [[c]]
    | t :: ts => if p c then [] :: t :: ts else (c :: t) :: ts

/-- Python `str.count`: number of non-overlapping occurrences, scanning left
to right.  `skip` is the number of characters of a just-matched occurrence
still to be consumed, which keeps the recursion structural. -/
def countAux (needle : List Char) : Nat → List Char → Nat
  | _, [] => 0
  | k + 1, _ :: cs => countAux needle k cs
  | 0, c :: cs =>
    if needle <+: (c :: cs) then 1 + countAux needle (needle.length - 1) cs
    else countAux needle 0 cs

def pyCount (needle hay : List Char) : Nat :=
  if needle = [] then hay.length + 1 else countAux needle 0 hay

/-- Index of the first occurrence of `needle`, scanning left to right. -/
def findAux (needle : List Char) (i : Nat) : List Char → Option Nat
  | [] => if needle = [] then some i else none
  | c :: cs => if needle <+: (c :: cs) then some i else findAux needle (i + 1) cs

/-- Python `str.find`: first index of `needle`, `-1` when absent. -/
def pyFind (needle hay : List Char) : Int :=
  match findAux needle 0 hay with
  | some i => (i : Int)
  | none => -1

/-- Case-insensitive prefix test: model of matching the IGNORECASE-compiled
literal pattern `re.escape(pat)` at the head of `s`. -/
def ciMatches (pat s : List Char) : Bool :=
  (s.take pat.length).map lowerChar == pat.map lowerChar

/-- Model of `re.sub(re.escape(pat), opn + match + cls, s, flags=IGNORECASE)`:
wrap every non-overlapping, case-insensitive occurrence of `pat` in the
markers, preserving the original matched characters (the `\1` / `m.group(0)`
backreference).  Fueled to stay structurally recursive; `s.length` fuel is
exact for nonempty `pat`. -/
def subHF (opn cls pat : List Char) : Nat → List Char → List Char
  | 0, s => s
  | _ + 1, [] => []
  | f + 1, c :: cs =>
    if ciMatches pat (c :: cs) then
      opn ++ (c :: cs).take pat.length ++ cls ++
        subHF opn cls pat f ((c :: cs).drop pat.length)
    else c :: subHF opn cls pat f cs

def subHighlight (opn cls pat s : List Char) : List Char :=
  subHF opn cls pat s.length s

/-- Stripping all highlight markers: remove every occurrence of the opening
and of the closing marker, scanning left to right.  This is the inverse
operation the round-trip property of the spec quantifies over. -/
def stripF (opn cls : List Char) : Nat → List Char → List Char
  | 0, s => s
  | _ + 1, [] => []
  | f + 1, c :: cs =>
    if opn ≠ [] ∧ opn <+: (c :: cs) then stripF opn cls f ((c :: cs).drop opn.length)
    else if cls ≠ [] ∧ cls <+: (c :: cs) then stripF opn cls f ((c :: cs).drop cls.length)
    else c :: stripF opn cls f cs

def stripMarks (opn cls s : List Char) : List Char :=
  stripF opn cls s.length s

/-- The opening highlight marker of `semantic_keyword_search`. -/
def appOpenM : List Char :=
  "<mark style=\"background-color: #FFEB3B; padding: 2px 4px; border-radius: 3px; font-weight: bold;\">".data

def appCloseM : List Char := "</mark>".data

/-- The highlight markers of `search_docs` in the Gradio variant. -/
def aiOpenM : List Char := "<mark>".data

def aiCloseM : List Char := "</mark>".data

/-- Stable insertion of `a` into `l`, placing `a` before the first element
whose key is not larger.  Folding this over a list yields exactly the
(unique) stable descending sort, i.e. Python `sorted(key=key, reverse=True)`. -/
def insertByDesc {α β : Type} [LinearOrder β] (key : α → β) (a : α) : List α → List α
  | [] => [a]
  | b :: bs => if key b ≤ key a then a :: b :: bs else b :: insertByDesc key a bs

def sortByDesc {α β : Type} [LinearOrder β] (key : α → β) (l : List α) : List α :=
  l.foldr (insertByDesc key) []

/-- Lowercased suffix test: `name.lower().endswith(suf)`. -/
def endsLower (name : String) (suf : List Char) : Prop :=
  suf <:+ lowerL name.data

instance (n : String) (s : List Char) : Decidable (endsLower n s) :=
  show Decidable (s <:+ lowerL n.data) from inferInstance

/-- The metadata dictionary built per document by `handle_file_upload` from
`analyze_text_content`.  The `upload_date` entry (wall-clock
`datetime.now()`) is outside the embedded state and is omitted. -/
structure PyMeta where
  filename : String
  file_size : Nat
  word_count : Nat
  sentence_count : Nat
  common_words : List (String × Nat)
  sentences : List String
  content_preview : String
  content : String
deriving DecidableEq

/-- Words of `analyze_text_content`: `re.findall(r'\b[a-zA-Z]{2,}\b', text.lower())`,
i.e. the maximal alphabetic runs of the lowercased text of length at least 2. -/
def pyWords (text : String) : List String :=
  ((runsOf isAlphaB (lowerL text.data)).filter (fun w => 2 ≤ w.length)).map
    (fun w => String.mk w)

/-- Sentences of `analyze_text_content`:
`[s.strip() for s in re.split(r'[.!?]+', text) if s.strip()]`.  Splitting on
a run of separators equals splitting at each separator once empty stripped
pieces are discarded, which the comprehension does. -/
def pySentences (text : String) : List String :=
  (((piecesAux isSentSepB text.data).map pyStrip).filter (fun p => p ≠ [])).map
    (fun p => String.mk p)

/-- Distinct elements in order of first appearance (Python dict/Counter
insertion order). -/
def firstSeen (l : List String) : List String :=
  l.foldl (fun acc w => if w ∈ acc then acc else acc ++ [w]) []

/-- `Counter(words).most_common n`: counts in first-insertion order, stably
sorted by count descending, first `n` taken. -/
def commonWords (ws : List String) (n : Nat) : List (String × Nat) :=
  (sortByDesc (fun p => p.2) ((firstSeen ws).map (fun w => (w, ws.count w)))).take n

/-- The metadata record appended by `handle_file_upload` for a file whose
extracted text is `text`. -/
def mkMeta (name : String) (sz : Nat) (text : String) : PyMeta :=
  let ws := pyWords text
  let ss := pySentences text
  { filename := name
    file_size := sz
    word_count := ws.length
    sentence_count := ss.length
    common_words := commonWords ws 10
    sentences := ss
    content_preview :=
      if 500 < text.length then String.mk (text.data.take 500) ++ "..." else text
    content := text }

/-- One entry of the `semantic_matches` list of `semantic_keyword_search`. -/
structure SemMatch where
  sentence : String
  similarity : ℚ
  position : Nat
  term : String
deriving DecidableEq

/-- One result dictionary of `semantic_keyword_search`. -/
structure SResult where
  document : String
  metadata : PyMeta
  score : ℚ
  «matches» : List SemMatch
deriving DecidableEq

/-- `query.lower().split()`. -/
def queryTokens (q : String) : List String :=
  (runsOf nonWsB (lowerL q.data)).map (fun w => String.mk w)

/-- `[term for term in query_lower.split() if len(term) > 2]`. -/
def queryTermsOf (q : String) : List String :=
  (queryTokens q).filter (fun t => 2 < t.length)

/-- The contextual matches one term contributes over a document's sentences
(the inner sentence loop of `semantic_keyword_search`), including the
per-term highlighted sentence. -/
def termSentMatches (term : String) (sentences : List String) : List SemMatch :=
  sentences.enum.filterMap (fun p =>
    let sl := lowerL p.2.data
    if term.data <:+: sl then
      some
        { sentence := String.mk (subHighlight appOpenM appCloseM term.data p.2.data)
          similarity := 3/10 + 7/10 * (1 - (pyFind term.data sl : ℚ) / (max p.2.length 1 : ℚ))
          position := p.1
          term := term }
    else none)

/-- The per-document body of the scoring loop of `semantic_keyword_search`:
`none` when the document has zero term frequency (the document is excluded),
otherwise the scored result dictionary.  `0.4` and `0.3` are the exact
rationals `2/5` and `3/10`. -/
def scoreDoc (terms : List String) (p : String × PyMeta) : Option SResult :=
  let dl := lowerL p.1.data
  let tf := (terms.map (fun t => pyCount t.data dl)).sum
  let sems := (terms.map (fun t => termSentMatches t p.2.sentences)).flatten
  if tf = 0 then none
  else
    let base := min ((tf : ℚ) / ((terms.length : ℚ) * 5)) 1
    let lf := min ((p.1.length : ℚ) / 1000) 1
    let mq := (sems.length : ℚ) / (max p.2.sentences.length 1 : ℚ)
    some
      { document := p.1
        metadata := p.2
        score := base * (2/5) + lf * (3/10) + mq * (3/10)
        «matches» := (sortByDesc (fun m => m.similarity) sems).take 3 }

/-- The unsorted results list, in document (upload) order. -/
def collectResults (terms : List String) (docs : List String) (metas : List PyMeta) :
    List SResult :=
  (docs.zip metas).filterMap (scoreDoc terms)

/-- `SearchEngine.semantic_keyword_search`. -/
def semantic_keyword_search (query : String) (documents : List String)
    (metadata : List PyMeta) (top_k : Nat) : List SResult :=
  if query = "" ∨ documents = [] then []
  else if queryTermsOf query = [] then []
  else (sortByDesc (fun r => r.score) (collectResults (queryTermsOf query) documents metadata)).take top_k

/-- One stored document of the Gradio variant's module-level `DOCS` store. -/
structure DocInfo where
  text : String
  note : String
deriving DecidableEq

/-- The per-document body of the `search_docs` loop: skip empty text, count
case-insensitive non-overlapping occurrences of the stripped keyword, emit a
hit when there is at least one match. -/
def docHit (k : List Char) (p : String × DocInfo) : Option (String × Nat) :=
  if p.2.text.data = [] then none
  else
    let cnt := pyCount (lowerL k) (lowerL p.2.text.data)
    if 0 < cnt then some (p.1, cnt) else none

/-- The observable outcome of `search_docs`: whether the guidance message
for a blank keyword was returned, and the (filename, hit count) items of the
rendered result list.  Snippet HTML assembly is presentation and is not
modelled; the highlighting it applies is `subHighlight aiOpenM aiCloseM`. -/
structure SearchDocsOut where
  guidance : Bool
  results : List (String × Nat)
deriving DecidableEq

/-- `search_docs` of the Gradio variant. -/
def search_docs (keyword : String) (docs : List (String × DocInfo)) : SearchDocsOut :=
  if keyword.data = [] ∨ pyStrip keyword.data = [] then { guidance := true, results := [] }
  else { guidance := false, results := docs.filterMap (docHit (pyStrip keyword.data)) }

/-- Abstract file bytes.  `doc` carries the outcome of parsing the bytes
with the extractor matching the file's declared type (the third-party
parsers are external capabilities); `arch` is a well-formed ZIP archive with
its entry list (name, byte size, bytes). -/
inductive Content where
  | doc (parse : Except String String)
  | arch (entries : List (String × Nat × Content))

/-- An uploaded file object as `handle_file_upload` sees it: `name`,
`len(getvalue())`, and its bytes. -/
structure UFile where
  name : String
  size : Nat
  content : Content

/-- `DocumentProcessor.extract_text_from_pdf`: text (stripped) on success,
a wrapped raised exception otherwise; parsing a ZIP as PDF raises. -/
def extract_text_from_pdf : Content → Except String String
  | Content.doc (Except.ok t) => Except.ok (pyStripStr t)
  | Content.doc (Except.error e) => Except.error ("PDF processing error: " ++ e)
  | Content.arch _ => Except.error ("PDF processing error: not a PDF document")

/-- `DocumentProcessor.extract_text_from_docx`. -/
def extract_text_from_docx : Content → Except String String
  | Content.doc (Except.ok t) => Except.ok (pyStripStr t)
  | Content.doc (Except.error e) => Except.error ("DOCX processing error: " ++ e)
  | Content.arch _ => Except.error ("DOCX processing error: not a DOCX document")

/-- The extraction dispatch inside the `handle_file_upload` loop:
`text_content` stays `""` for names ending in neither `.pdf` nor `.docx`. -/
def fileText (f : UFile) : Except String String :=
  if endsLower f.name ".pdf".data then extract_text_from_pdf f.content
  else if endsLower f.name ".docx".data then extract_text_from_docx f.content
  else Except.ok ""

/-- The state `handle_file_upload` builds: the parallel `documents` /
`metadata` lists, and the `st.error` line-items raised for failing files. -/
structure HFUOut where
  documents : List String
  metadata : List PyMeta
  errors : List String
deriving DecidableEq

/-- One iteration of the `handle_file_upload` loop: a raised extraction
error is caught and surfaced as an error line-item (`continue`); empty text
is silently skipped; nonempty text is analyzed and appended. -/
def hfuStep (acc : HFUOut) (f : UFile) : HFUOut :=
  match fileText f with
  | Except.error e =>
    { acc with errors := acc.errors ++ ["Error processing " ++ f.name ++ ": " ++ e] }
  | Except.ok t =>
    if t = "" then acc
    else
      { acc with
        metadata := acc.metadata ++ [mkMeta f.name f.size t]
        documents := acc.documents ++ [t] }

/-- `MeetSearchApplication.handle_file_upload` (progress widgets and
`time.sleep` are presentation).  Total: every per-file exception is caught
inside the loop, so the call itself never raises. -/
def handleFileUpload (files : List UFile) : HFUOut :=
  files.foldl hfuStep { documents := [], metadata := [], errors := [] }

/-- The ZIP branch of `render_upload_section`: walk the entry list once,
keep entries whose lowercased name ends in `.pdf` or `.docx` as in-memory
file objects, skip everything else (in particular nested `.zip` entries are
neither expanded nor kept). -/
def collectZipFiles (entries : List (String × Nat × Content)) : List UFile :=
  entries.filterMap (fun e =>
    if endsLower e.1 ".pdf".data ∨ endsLower e.1 ".docx".data then
      some { name := e.1, size := e.2.1, content := e.2.2 }
    else none)

/-- One item passed to `process_upload` of the Gradio variant: a local path,
whether `os.path.exists` holds, and the file's bytes.  A well-formed ZIP has
`arch` content; a `.zip`-named file whose bytes are not a ZIP has `doc`
content and makes `zipfile.ZipFile` raise. -/
structure UploadItem where
  path : String
  found : Bool
  content : Content

/-- `os.path.basename` for POSIX paths. -/
def basenameStr (p : String) : String :=
  String.mk ((p.data.reverse.takeWhile (fun c => c ≠ '/')).reverse)

/-- Writing a file into the temporary workspace: a path already present is
overwritten in place (filesystem semantics), otherwise the file is new. -/
def addFile (ws : List (String × Content)) (n : String) (c : Content) :
    List (String × Content) :=
  if ws.any (fun q => q.1 == n) then ws.map (fun q => if q.1 == n then (n, c) else q)
  else ws ++ [(n, c)]

/-- `ZipFile.extractall(tmp)`: every entry is written out as a file under
its entry name — a nested archive entry becomes a `.zip` file, its own
entries are not written (one level only). -/
def extractAll (ws : List (String × Content)) (es : List (String × Nat × Content)) :
    List (String × Content) :=
  es.foldl (fun w e => addFile w e.1 e.2.2) ws

/-- Phase 1 of `process_upload` for one uploaded item: skip falsy paths,
record missing files, extract ZIPs (recording a failure when the bytes are
not a ZIP), copy everything else under its basename. -/
def puStep1 (st : List (String × Content) × List String) (it : UploadItem) :
    List (String × Content) × List String :=
  if it.path = "" then st
  else if it.found = false then (st.1, st.2 ++ ["File not found: " ++ it.path])
  else if endsLower it.path ".zip".data then
    match it.content with
    | Content.arch es => (extractAll st.1 es, st.2)
    | Content.doc _ => (st.1, st.2 ++ ["Failed to extract " ++ basenameStr it.path])
  else (addFile st.1 (basenameStr it.path) it.content, st.2)

/-- `extract_text_pdf` / `extract_text_docx` of the Gradio variant: both
catch every parser exception and return `""`; parsing non-document bytes
(e.g. a nested ZIP written out as a `.pdf`-named file) raises inside and
yields `""` as well. -/
def extractTextA : Content → String
  | Content.doc (Except.ok t) => t
  | Content.doc (Except.error _) => ""
  | Content.arch _ => ""

/-- The diagnostic note attached to documents with no extractable text. -/
def noteStr : String := "(no text extracted — likely a scanned PDF or protected file)"

/-- Phase 2 of `process_upload`, per workspace file: files whose lowercased
name ends in `.pdf`/`.docx` are read into `DOCS` with a diagnostic note when
the text strips to nothing; every other file is ignored. -/
def walkEntry (f : String × Content) : Option (String × DocInfo) :=
  if endsLower f.1 ".pdf".data ∨ endsLower f.1 ".docx".data then
    let text := extractTextA f.2
    some (f.1, { text := text, note := if pyStrip text.data = [] then noteStr else "" })
  else none

def walkStep (st : List (String × DocInfo) × List String) (f : String × Content) :
    List (String × DocInfo) × List String :=
  match walkEntry f with
  | some d => (st.1 ++ [d], st.2 ++ [d.1])
  | none => st

/-- Resource events on the temporary extraction directory:
`tempfile.mkdtemp` acquires it, `shutil.rmtree` would release it. -/
inductive REvent where
  | acquire
  | release
deriving DecidableEq

/-- The observable outcome of `process_upload`: the `DOCS` store, the
`processed` name list, the warning/error line-items of the summary, and the
trace of resource events on the temporary directory. -/
structure PUOut where
  docs : List (String × DocInfo)
  processed : List String
  errors : List String
  trace : List REvent
deriving DecidableEq

/-- `process_upload` of the Gradio variant.  `tempfile.mkdtemp` runs before
the empty-input early return, so `acquire` is always traced; the source
contains no `rmtree`/deletion of `tmp`, so no `release` is ever emitted on
any path. -/
def process_upload (items : List UploadItem) : PUOut :=
  match items with
  | [] => { docs := [], processed := [], errors := [], trace := [REvent.acquire] }
  | _ :: _ =>
    let s1 := items.foldl puStep1 ([], [])
    let w := s1.1.foldl walkStep ([], [])
    { docs := w.1, processed := w.2, errors := s1.2, trace := [REvent.acquire] }

/-- What phase 2 can observe of a workspace entry written by `extractall` or
`shutil.copy`: its name and the text its extractor would yield. -/
def entryView (e : String × Nat × Content) : String × String :=
  (e.1, extractTextA e.2.2)

def contentView : Content → Option (List (String × String))
  | Content.doc _ => none
  | Content.arch es => some (es.map entryView)

/-- What `process_upload` can observe of one uploaded item. -/
structure ItemView where
  path : String
  found : Bool
  textv : String
  archv : Option (List (String × String))

def itemView (it : UploadItem) : ItemView :=
  { path := it.path, found := it.found, textv := extractTextA it.content
    archv := contentView it.content }

def addFileV (ws : List (String × String)) (n : String) (t : String) :
    List (String × String) :=
  if ws.any (fun q => q.1 == n) then ws.map (fun q => if q.1 == n then (n, t) else q)
  else ws ++ [(n, t)]

def viewStep1 (st : List (String × String) × List String) (v : ItemView) :
    List (String × String) × List String :=
  if v.path = "" then st
  else if v.found = false then (st.1, st.2 ++ ["File not found: " ++ v.path])
  else if endsLower v.path ".zip".data then
    match v.archv with
    | some es => (es.foldl (fun w e => addFileV w e.1 e.2) st.1, st.2)
    | none => (st.1, st.2 ++ ["Failed to extract " ++ basenameStr v.path])
  else (addFileV st.1 (basenameStr v.path) v.textv, st.2)

def walkEntryV (f : String × String) : Option (String × DocInfo) :=
  if endsLower f.1 ".pdf".data ∨ endsLower f.1 ".docx".data then
    some (f.1, { text := f.2, note := if pyStrip f.2.data = [] then noteStr else "" })
  else none

def walkStepV (st : List (String × DocInfo) × List String) (f : String × String) :
    List (String × DocInfo) × List String :=
  match walkEntryV f with
  | some d => (st.1 ++ [d], st.2 ++ [d.1])
  | none => st

/-- `process_upload` factored through the observable views of its inputs. -/
def processView (vs : List ItemView) : PUOut :=
  match vs with
  | [] => { docs := [], processed := [], errors := [], trace := [REvent.acquire] }
  | _ :: _ =>
    let s1 := vs.foldl viewStep1 ([], [])
    let w := s1.1.foldl walkStepV ([], [])
    { docs := w.1, processed := w.2, errors := s1.2, trace := [REvent.acquire] }

/-- The view phase 2 has of a workspace: names with extractable text. -/
def wsView (ws : List (String × Content)) : List (String × String) :=
  ws.map (fun q => (q.1, extractTextA q.2))

/-- Field-wise concatenation of two `handle_file_upload` states. -/
def happend (a b : HFUOut) : HFUOut :=
  { documents := a.documents ++ b.documents
    metadata := a.metadata ++ b.metadata
    errors := a.errors ++ b.errors }

attribute [local semireducible] Rat.mul Rat.add Rat.sub Rat.inv

theorem mem_insertByDesc {α β : Type} [LinearOrder β] (key : α → β) (a x : α) :
    ∀ l : List α, x ∈ insertByDesc key a l ↔ x = a ∨ x ∈ l
  | [] => by simp [insertByDesc]
  | b :: bs => by
    by_cases h : key b ≤ key a
    · simp [insertByDesc, h]
    · simp only [insertByDesc, if_neg h, List.mem_cons, mem_insertByDesc key a x bs]
      tauto

theorem mem_sortByDesc {α β : Type} [LinearOrder β] (key : α → β) (x : α) :
    ∀ l : List α, x ∈ sortByDesc key l ↔ x ∈ l
  | [] => Iff.rfl
  | b :: bs => by
    rw [show sortByDesc key (b :: bs) = insertByDesc key b (sortByDesc key bs) from rfl,
      mem_insertByDesc, mem_sortByDesc key x bs, List.mem_cons]

theorem pairwise_insertByDesc {α β : Type} [LinearOrder β] (key : α → β) (a : α) :
    ∀ l : List α, l.Pairwise (fun x y => key y ≤ key x) →
      (insertByDesc key a l).Pairwise (fun x y => key y ≤ key x)
  | [], _ => List.pairwise_singleton _ a
  | b :: bs, h => by
    rcases List.pairwise_cons.mp h with ⟨hb, hbs⟩
    by_cases hle : key b ≤ key a
    · have he : insertByDesc key a (b :: bs) = a :: b :: bs := by
        simp [insertByDesc, hle]
      rw [he]
      refine List.pairwise_cons.mpr ⟨?_, h⟩
      intro y hy
      rcases List.mem_cons.mp hy with rfl | hy
      · exact hle
      · exact le_trans (hb y hy) hle
    · have he : insertByDesc key a (b :: bs) = b :: insertByDesc key a bs := by
        simp [insertByDesc, hle]
      rw [he]
      refine List.pairwise_cons.mpr ⟨?_, pairwise_insertByDesc key a bs hbs⟩
      intro y hy
      rcases (mem_insertByDesc key a y bs).mp hy with rfl | hy
      · exact le_of_lt (lt_of_not_le hle)
      · exact hb y hy

theorem pairwise_sortByDesc {α β : Type} [LinearOrder β] (key : α → β) :
    ∀ l : List α, (sortByDesc key l).Pairwise (fun x y => key y ≤ key x)
  | [] => List.Pairwise.nil
  | b :: bs => pairwise_insertByDesc key b _ (pairwise_sortByDesc key bs)

theorem filter_insertByDesc {α β : Type} [LinearOrder β] (key : α → β) (a : α) (s : β) :
    ∀ l : List α,
      (insertByDesc key a l).filter (fun x => decide (key x = s)) =
        (a :: l).filter (fun x => decide (key x = s))
  | [] => rfl
  | b :: bs => by
    by_cases hle : key b ≤ key a
    · simp [insertByDesc, hle]
    · have hab : key a < key b := lt_of_not_le hle
      simp only [insertByDesc, if_neg hle]
      by_cases hbs : key b = s
      · by_cases has : key a = s
        · exact absurd (has.trans hbs.symm) (ne_of_lt hab)
        · simp [List.filter_cons, hbs, has, filter_insertByDesc key a s bs]
      · simp [List.filter_cons, hbs, filter_insertByDesc key a s bs]

theorem filter_sortByDesc {α β : Type} [LinearOrder β] (key : α → β) (s : β) :
    ∀ l : List α,
      (sortByDesc key l).filter (fun x => decide (key x = s)) =
        l.filter (fun x => decide (key x = s))
  | [] => rfl
  | b :: bs => by
    have h1 : sortByDesc key (b :: bs) = insertByDesc key b (sortByDesc key bs) := rfl
    rw [h1, filter_insertByDesc, List.filter_cons, List.filter_cons,
      filter_sortByDesc key s bs]

theorem pairwise_take {α : Type} {R : α → α → Prop} {l : List α} (n : Nat)
    (h : l.Pairwise R) : (l.take n).Pairwise R :=
  List.Pairwise.sublist (List.take_sublist n l) h

theorem countAux_skip (needle : List Char) :
    ∀ (l : List Char) (k : Nat), countAux needle k l = countAux needle 0 (l.drop k)
  | [], k => by cases k <;> rfl
  | c :: cs, 0 => rfl
  | c :: cs, k + 1 => by
    rw [show countAux needle (k + 1) (c :: cs) = countAux needle k cs from rfl,
      countAux_skip needle cs k, List.drop_succ_cons]

theorem pyCount_cons (needle : List Char) (c : Char) (cs : List Char) (h : needle ≠ []) :
    pyCount needle (c :: cs) =
      if needle <+: (c :: cs) then 1 + pyCount needle ((c :: cs).drop needle.length)
      else pyCount needle cs := by
  obtain ⟨n, hn⟩ : ∃ n, needle.length = n + 1 :=
    ⟨needle.length - 1, by have := List.length_pos.mpr h; omega⟩
  have e1 : pyCount needle (c :: cs) =
      if needle <+: (c :: cs) then 1 + countAux needle (needle.length - 1) cs
      else countAux needle 0 cs := by
    rw [pyCount, if_neg h]
    rfl
  rw [e1]
  by_cases hp : needle <+: (c :: cs)
  · rw [if_pos hp, if_pos hp, countAux_skip needle cs (needle.length - 1)]
    have e2 : (c :: cs).drop needle.length = cs.drop (needle.length - 1) := by
      rw [hn, List.drop_succ_cons, Nat.add_sub_cancel]
    rw [e2, pyCount, if_neg h]
  · rw [if_neg hp, if_neg hp, pyCount, if_neg h]

theorem pyCount_pos_iff (needle : List Char) :
    ∀ hay : List Char, 0 < pyCount needle hay ↔ needle <:+: hay := by
  by_cases h : needle = []
  · intro hay
    subst h
    simp [pyCount]
  · intro hay
    induction hay with
    | nil =>
      rw [show pyCount needle [] = countAux needle 0 [] from if_neg h]
      simp [countAux, List.infix_nil, h]
    | cons c cs ih =>
      rw [pyCount_cons needle c cs h]
      by_cases hp : needle <+: (c :: cs)
      · simp only [if_pos hp]
        constructor
        · intro _
          exact hp.isInfix
        · intro _
          omega
      · rw [if_neg hp, ih, List.infix_cons_iff]
        tauto

theorem pyStrip_eq_nil_iff (l : List Char) :
    pyStrip l = [] ↔ ∀ c ∈ l, wsB c = true := by
  rw [pyStrip, dropEndWhile, List.reverse_eq_nil_iff, List.dropWhile_eq_nil_iff]
  constructor
  · intro h c hc
    have hsplit : c ∈ l.takeWhile wsB ++ l.dropWhile wsB := by
      rw [List.takeWhile_append_dropWhile]
      exact hc
    rcases List.mem_append.mp hsplit with h1 | h2
    · exact List.mem_takeWhile_imp h1
    · exact h c (List.mem_reverse.mpr h2)
  · intro h c hc
    exact h c ((List.dropWhile_sublist wsB).subset (List.mem_reverse.mp hc))

theorem dropWhile_head_false (p : Char → Bool) :
    ∀ (l : List Char) {c : Char} {cs : List Char}, l.dropWhile p = c :: cs → p c = false := by
  intro l
  induction l with
  | nil =>
    intro c cs h
    simp at h
  | cons a as ih =>
    intro c cs h
    by_cases ha : p a
    · rw [List.dropWhile_cons_of_pos ha] at h
      exact ih h
    · rw [List.dropWhile_cons_of_neg ha] at h
      cases h
      simpa using ha

theorem dropEndWhile_isPre (p : Char → Bool) (l : List Char) :
    dropEndWhile p l <+: l := by
  rw [dropEndWhile]
  have h : l.reverse.dropWhile p <:+ l.reverse := List.dropWhile_suffix p
  rw [show l.reverse.dropWhile p = ((l.reverse.dropWhile p).reverse).reverse by
    rw [List.reverse_reverse]] at h
  exact List.reverse_suffix.mp h

theorem exists_nonws_of_pyStrip_ne_nil {l : List Char} (h : pyStrip l ≠ []) :
    ∃ c ∈ pyStrip l, wsB c = false := by
  set m := l.dropWhile wsB with hm
  have hmne : m ≠ [] := by
    intro hnil
    apply h
    rw [pyStrip, ← hm, hnil]
    rfl
  obtain ⟨c, cs, hcs⟩ := List.exists_cons_of_ne_nil hmne
  have hc : wsB c = false := dropWhile_head_false wsB l (hm ▸ hcs)
  have hpre : pyStrip l <+: m := by
    rw [pyStrip, ← hm]
    exact dropEndWhile_isPre wsB m
  obtain ⟨t, ht⟩ := hpre
  obtain ⟨p0, pr, hps⟩ := List.exists_cons_of_ne_nil h
  have hp0 : p0 = c := by
    rw [hps, hcs] at ht
    exact (List.cons.injEq _ _ _ _ ▸ ht).1
  refine ⟨p0, ?_, hp0 ▸ hc⟩
  rw [hps]
  exact List.mem_cons_self p0 pr

theorem ws_toNat_le {c : Char} (h : wsB c = true) : c.toNat ≤ 32 := by
  have h6 : c = ' ' ∨ (c = '\t' ∨ (c = '\n' ∨ (c = '\x0d' ∨ (c = '\x0b' ∨ c = '\x0c')))) := by
    simp [wsB] at h
    tauto
  rcases h6 with rfl | rfl | rfl | rfl | rfl | rfl <;> decide

theorem toNat_ofNat_valid {n : Nat} (h : n.isValidChar) : (Char.ofNat n).toNat = n := by
  rw [Char.ofNat, dif_pos h]
  rfl

theorem lowerChar_of_ws {c : Char} (h : wsB c = true) : lowerChar c = c := by
  have hle := ws_toNat_le h
  rw [lowerChar, if_neg]
  intro hc
  have h65 : (65 : Nat) ≤ c.toNat := hc.1
  omega

theorem wsB_lowerChar {c : Char} (h : wsB c = false) : wsB (lowerChar c) = false := by
  by_cases hc : 'A' ≤ c ∧ c ≤ 'Z'
  · rw [lowerChar, if_pos hc]
    have h65 : (65 : Nat) ≤ c.toNat := hc.1
    have h90 : c.toNat ≤ 90 := hc.2
    have hval : (c.toNat + 32).isValidChar := Or.inl (by omega)
    have htn := toNat_ofNat_valid hval
    by_contra hws
    have := ws_toNat_le (Bool.of_not_eq_false hws)
    omega
  · rw [lowerChar, if_neg hc]
    exact h

theorem lowerL_of_all_ws {l : List Char} (h : ∀ c ∈ l, wsB c = true) :
    lowerL l = l := by
  rw [lowerL]
  conv_rhs => rw [← List.map_id l]
  exact List.map_congr_left fun c hc => lowerChar_of_ws (h c hc)

theorem happend_empty_left (a : HFUOut) :
    happend { documents := [], metadata := [], errors := [] } a = a := by
  cases a
  simp [happend]

theorem happend_empty_right (a : HFUOut) :
    happend a { documents := [], metadata := [], errors := [] } = a := by
  cases a
  simp [happend]

theorem happend_assoc (a b c : HFUOut) :
    happend (happend a b) c = happend a (happend b c) := by
  simp [happend]

theorem hfuStep_split (acc : HFUOut) (f : UFile) :
    hfuStep acc f = happend acc (hfuStep { documents := [], metadata := [], errors := [] } f) := by
  cases hft : fileText f with
  | error e =>
    cases acc
    simp [hfuStep, hft, happend]
  | ok t =>
    by_cases ht : t = ""
    · subst ht
      cases acc
      simp [hfuStep, hft, happend]
    · cases acc
      simp [hfuStep, hft, ht, happend]

theorem foldl_hfuStep_acc (files : List UFile) :
    ∀ acc : HFUOut, files.foldl hfuStep acc = happend acc (handleFileUpload files) := by
  induction files with
  | nil =>
    intro acc
    rw [handleFileUpload]
    simp [List.foldl_nil, happend_empty_right]
  | cons f fs ih =>
    intro acc
    have h1 : handleFileUpload (f :: fs) =
        happend (hfuStep { documents := [], metadata := [], errors := [] } f)
          (handleFileUpload fs) := by
      conv_lhs => rw [handleFileUpload, List.foldl_cons]
      rw [ih (hfuStep { documents := [], metadata := [], errors := [] } f)]
    rw [List.foldl_cons, ih (hfuStep acc f), hfuStep_split acc f, happend_assoc, h1]

theorem handleFileUpload_append (l₁ l₂ : List UFile) :
    handleFileUpload (l₁ ++ l₂) = happend (handleFileUpload l₁) (handleFileUpload l₂) := by
  rw [handleFileUpload, List.foldl_append, ← handleFileUpload, foldl_hfuStep_acc]

theorem handleFileUpload_single_error (f : UFile) (e : String) (h : fileText f = Except.error e) :
    handleFileUpload [f] =
      { documents := [], metadata := []
        errors := ["Error processing " ++ f.name ++ ": " ++ e] } := by
  rw [handleFileUpload, List.foldl_cons, List.foldl_nil, hfuStep, h]
  rfl

theorem handleFileUpload_single_empty (f : UFile) (h : fileText f = Except.ok "") :
    handleFileUpload [f] = { documents := [], metadata := [], errors := [] } := by
  rw [handleFileUpload, List.foldl_cons, List.foldl_nil, hfuStep, h]
  rfl

theorem handleFileUpload_docs_nil (files : List UFile)
    (h : ∀ f ∈ files, ∀ t, fileText f = Except.ok t → t = "") :
    (handleFileUpload files).documents = [] ∧ (handleFileUpload files).metadata = [] := by
  induction files with
  | nil => exact ⟨rfl, rfl⟩
  | cons f fs ih =>
    have hcons : handleFileUpload (f :: fs) =
        happend (handleFileUpload [f]) (handleFileUpload fs) :=
      handleFileUpload_append [f] fs
    have hf : handleFileUpload [f] = { documents := [], metadata := [], errors := (handleFileUpload [f]).errors } := by
      cases hft : fileText f with
      | error e =>
        rw [handleFileUpload_single_error f e hft]
      | ok t =>
        have ht : t = "" := h f (List.mem_cons_self f fs) t hft
        rw [handleFileUpload_single_empty f (ht ▸ hft)]
    have ihr := ih (fun g hg => h g (List.mem_cons_of_mem f hg))
    constructor
    · rw [hcons, happend]
      simp only []
      rw [show (handleFileUpload [f]).documents = [] from congrArg HFUOut.documents hf, List.nil_append]
      exact ihr.1
    · rw [hcons, happend]
      simp only []
      rw [show (handleFileUpload [f]).metadata = [] from congrArg HFUOut.metadata hf, List.nil_append]
      exact ihr.2

theorem subHF_fuel (opn cls pat : List Char) (hpat : pat ≠ []) :
    ∀ (f : Nat), ∀ (g : Nat) (s : List Char), s.length ≤ f → s.length ≤ g →
      subHF opn cls pat f s = subHF opn cls pat g s := by
  intro f
  induction f with
  | zero =>
    intro g s hf _
    have hs : s = [] := List.eq_nil_of_length_eq_zero (Nat.le_zero.mp hf)
    subst hs
    cases g <;> rfl
  | succ f ih =>
    intro g s hf hg
    cases s with
    | nil => cases g <;> rfl
    | cons c cs =>
      cases g with
      | zero => simp at hg
      | succ g =>
        simp only [subHF]
        have hplen : 1 ≤ pat.length := List.length_pos.mpr hpat
        have hlcs : cs.length ≤ f := by
          simp only [List.length_cons] at hf
          omega
        have hlcs' : cs.length ≤ g := by
          simp only [List.length_cons] at hg
          omega
        by_cases hci : ciMatches pat (c :: cs)
        · rw [if_pos hci, if_pos hci]
          have hdl : ((c :: cs).drop pat.length).length ≤ f := by
            rw [List.length_drop]
            simp only [List.length_cons]
            omega
          have hdl' : ((c :: cs).drop pat.length).length ≤ g := by
            rw [List.length_drop]
            simp only [List.length_cons]
            omega
          rw [ih g _ hdl hdl']
        · rw [if_neg hci, if_neg hci, ih g cs hlcs hlcs']

theorem subHighlight_cons_pos (opn cls pat : List Char) (hpat : pat ≠ [])
    (c : Char) (cs : List Char) (hci : ciMatches pat (c :: cs) = true) :
    subHighlight opn cls pat (c :: cs) =
      opn ++ (c :: cs).take pat.length ++ cls ++
        subHighlight opn cls pat ((c :: cs).drop pat.length) := by
  rw [subHighlight, subHighlight]
  simp only [List.length_cons, subHF, if_pos hci]
  have hplen : 1 ≤ pat.length := List.length_pos.mpr hpat
  have h1 : ((c :: cs).drop pat.length).length ≤ cs.length := by
    rw [List.length_drop]
    simp only [List.length_cons]
    omega
  rw [subHF_fuel opn cls pat hpat cs.length _ _ h1 (le_refl _)]

theorem subHighlight_cons_neg (opn cls pat : List Char)
    (c : Char) (cs : List Char) (hci : ciMatches pat (c :: cs) = false) :
    subHighlight opn cls pat (c :: cs) = c :: subHighlight opn cls pat cs := by
  rw [subHighlight, subHighlight]
  simp only [List.length_cons, subHF, hci]
  rw [if_neg (by simp [hci])]

theorem stripF_fuel (opn cls : List Char) :
    ∀ (f : Nat), ∀ (g : Nat) (s : List Char), s.length ≤ f → s.length ≤ g →
      stripF opn cls f s = stripF opn cls g s := by
  intro f
  induction f with
  | zero =>
    intro g s hf _
    have hs : s = [] := List.eq_nil_of_length_eq_zero (Nat.le_zero.mp hf)
    subst hs
    cases g <;> rfl
  | succ f ih =>
    intro g s hf hg
    cases s with
    | nil => cases g <;> rfl
    | cons c cs =>
      cases g with
      | zero => simp at hg
      | succ g =>
        simp only [stripF]
        have hlcs : cs.length ≤ f := by
          simp only [List.length_cons] at hf
          omega
        have hlcs' : cs.length ≤ g := by
          simp only [List.length_cons] at hg
          omega
        by_cases ho : opn ≠ [] ∧ opn <+: (c :: cs)
        · rw [if_pos ho, if_pos ho]
          have holen : 1 ≤ opn.length := List.length_pos.mpr ho.1
          have hdl : ((c :: cs).drop opn.length).length ≤ f := by
            rw [List.length_drop]
            simp only [List.length_cons]
            omega
          have hdl' : ((c :: cs).drop opn.length).length ≤ g := by
            rw [List.length_drop]
            simp only [List.length_cons]
            omega
          rw [ih g _ hdl hdl']
        · rw [if_neg ho, if_neg ho]
          by_cases hc : cls ≠ [] ∧ cls <+: (c :: cs)
          · rw [if_pos hc, if_pos hc]
            have hclen : 1 ≤ cls.length := List.length_pos.mpr hc.1
            have hdl : ((c :: cs).drop cls.length).length ≤ f := by
              rw [List.length_drop]
              simp only [List.length_cons]
              omega
            have hdl' : ((c :: cs).drop cls.length).length ≤ g := by
              rw [List.length_drop]
              simp only [List.length_cons]
              omega
            rw [ih g _ hdl hdl']
          · rw [if_neg hc, if_neg hc, ih g cs hlcs hlcs']

theorem stripMarks_cons_opn (opn cls : List Char) (c : Char) (cs : List Char)
    (h : opn ≠ []) (hpre : opn <+: (c :: cs)) :
    stripMarks opn cls (c :: cs) = stripMarks opn cls ((c :: cs).drop opn.length) := by
  rw [stripMarks, stripMarks]
  simp only [List.length_cons, stripF, if_pos (And.intro h hpre)]
  have holen : 1 ≤ opn.length := List.length_pos.mpr h
  have h1 : ((c :: cs).drop opn.length).length ≤ cs.length := by
    rw [List.length_drop]
    simp only [List.length_cons]
    omega
  rw [stripF_fuel opn cls cs.length _ _ h1 (le_refl _)]

theorem stripMarks_cons_cls (opn cls : List Char) (c : Char) (cs : List Char)
    (h1 : ¬(opn ≠ [] ∧ opn <+: (c :: cs))) (h : cls ≠ []) (hpre : cls <+: (c :: cs)) :
    stripMarks opn cls (c :: cs) = stripMarks opn cls ((c :: cs).drop cls.length) := by
  rw [stripMarks, stripMarks]
  simp only [List.length_cons, stripF, if_neg h1, if_pos (And.intro h hpre)]
  have hclen : 1 ≤ cls.length := List.length_pos.mpr h
  have hd : ((c :: cs).drop cls.length).length ≤ cs.length := by
    rw [List.length_drop]
    simp only [List.length_cons]
    omega
  rw [stripF_fuel opn cls cs.length _ _ hd (le_refl _)]

theorem stripMarks_cons_other (opn cls : List Char) (c : Char) (cs : List Char)
    (h1 : ¬(opn ≠ [] ∧ opn <+: (c :: cs))) (h2 : ¬(cls ≠ [] ∧ cls <+: (c :: cs))) :
    stripMarks opn cls (c :: cs) = c :: stripMarks opn cls cs := by
  rw [stripMarks, stripMarks]
  simp only [List.length_cons, stripF, if_neg h1, if_neg h2]

theorem stripMarks_opn_append (opn cls x : List Char) (h : opn ≠ []) :
    stripMarks opn cls (opn ++ x) = stripMarks opn cls x := by
  obtain ⟨o, os, ho⟩ := List.exists_cons_of_ne_nil h
  have hshape : opn ++ x = o :: (os ++ x) := by
    rw [ho]
    rfl
  rw [hshape]
  rw [show stripMarks opn cls (o :: (os ++ x)) = stripMarks opn cls ((o :: (os ++ x)).drop opn.length) from
    stripMarks_cons_opn opn cls o (os ++ x) h (hshape ▸ List.prefix_append opn x)]
  rw [show (o :: (os ++ x)) = opn ++ x from hshape.symm, List.drop_left]

theorem not_prefix_of_append (opn cls x : List Char)
    (h1 : ¬ opn <+: cls) (h2 : ¬ cls <+: opn) : ¬ opn <+: cls ++ x := by
  intro h
  rcases le_total opn.length cls.length with hle | hle
  · exact h1 (List.prefix_of_prefix_length_le h (List.prefix_append cls x) hle)
  · exact h2 (List.prefix_of_prefix_length_le (List.prefix_append cls x) h hle)

theorem stripMarks_cls_append (opn cls x : List Char) (h : cls ≠ [])
    (h1 : ¬ opn <+: cls) (h2 : ¬ cls <+: opn) :
    stripMarks opn cls (cls ++ x) = stripMarks opn cls x := by
  obtain ⟨o, os, ho⟩ := List.exists_cons_of_ne_nil h
  have hshape : cls ++ x = o :: (os ++ x) := by
    rw [ho]
    rfl
  have hno : ¬(opn ≠ [] ∧ opn <+: (o :: (os ++ x))) := by
    rintro ⟨_, hp⟩
    exact not_prefix_of_append opn cls x h1 h2 (hshape ▸ hp)
  rw [hshape]
  rw [stripMarks_cons_cls opn cls o (os ++ x) hno h (hshape ▸ List.prefix_append cls x)]
  rw [show (o :: (os ++ x)) = cls ++ x from hshape.symm, List.drop_left]

theorem stripMarks_clean_append (opn cls : List Char) (o' c' : List Char)
    (hoh : opn = '<' :: o') (hch : cls = '<' :: c') :
    ∀ (t x : List Char), (∀ c ∈ t, c ≠ '<') →
      stripMarks opn cls (t ++ x) = t ++ stripMarks opn cls x := by
  intro t
  induction t with
  | nil =>
    intro x _
    rfl
  | cons c ts ih =>
    intro x hcl
    have hc : c ≠ '<' := hcl c (List.mem_cons_self c ts)
    have hno : ¬(opn ≠ [] ∧ opn <+: (c :: (ts ++ x))) := by
      rintro ⟨_, hp⟩
      rw [hoh] at hp
      exact hc ((List.cons_prefix_cons.mp hp).1.symm)
    have hnc : ¬(cls ≠ [] ∧ cls <+: (c :: (ts ++ x))) := by
      rintro ⟨_, hp⟩
      rw [hch] at hp
      exact hc ((List.cons_prefix_cons.mp hp).1.symm)
    rw [show (c :: ts) ++ x = c :: (ts ++ x) from rfl,
      stripMarks_cons_other opn cls c (ts ++ x) hno hnc,
      ih x (fun d hd => hcl d (List.mem_cons_of_mem c hd))]
    rfl

theorem stripMarks_subHighlight (opn cls pat : List Char) (o' c' : List Char)
    (hpat : pat ≠ []) (hoh : opn = '<' :: o') (hch : cls = '<' :: c')
    (hnp1 : ¬ opn <+: cls) (hnp2 : ¬ cls <+: opn) :
    ∀ s : List Char, (∀ c ∈ s, c ≠ '<') →
      stripMarks opn cls (subHighlight opn cls pat s) = s := by
  have hone : opn ≠ [] := by
    rw [hoh]
    exact List.cons_ne_nil _ _
  have hcne : cls ≠ [] := by
    rw [hch]
    exact List.cons_ne_nil _ _
  have main : ∀ (n : Nat) (s : List Char), s.length ≤ n → (∀ c ∈ s, c ≠ '<') →
      stripMarks opn cls (subHighlight opn cls pat s) = s := by
    intro n
    induction n with
    | zero =>
      intro s hlen _
      have hs : s = [] := List.eq_nil_of_length_eq_zero (Nat.le_zero.mp hlen)
      subst hs
      rfl
    | succ n ih =>
      intro s hlen hcl
      cases s with
      | nil => rfl
      | cons c cs =>
        by_cases hci : ciMatches pat (c :: cs)
        · rw [subHighlight_cons_pos opn cls pat hpat c cs hci]
          have hassoc : opn ++ (c :: cs).take pat.length ++ cls ++
              subHighlight opn cls pat ((c :: cs).drop pat.length) =
              opn ++ ((c :: cs).take pat.length ++ (cls ++
                subHighlight opn cls pat ((c :: cs).drop pat.length))) := by
            simp [List.append_assoc]
          rw [hassoc, stripMarks_opn_append opn cls _ hone,
            stripMarks_clean_append opn cls o' c' hoh hch _ _
              (fun d hd => hcl d (List.take_subset pat.length (c :: cs) hd)),
            stripMarks_cls_append opn cls _ hcne hnp1 hnp2]
          have hplen : 1 ≤ pat.length := List.length_pos.mpr hpat
          have hdlen : ((c :: cs).drop pat.length).length ≤ n := by
            rw [List.length_drop]
            simp only [List.length_cons] at hlen ⊢
            omega
          rw [ih _ hdlen (fun d hd => hcl d (List.drop_subset pat.length (c :: cs) hd))]
          exact List.take_append_drop pat.length (c :: cs)
        · rw [subHighlight_cons_neg opn cls pat c cs (Bool.of_not_eq_true hci)]
          have hc : c ≠ '<' := hcl c (List.mem_cons_self c cs)
          have hno : ¬(opn ≠ [] ∧ opn <+: (c :: subHighlight opn cls pat cs)) := by
            rintro ⟨_, hp⟩
            rw [hoh] at hp
            exact hc ((List.cons_prefix_cons.mp hp).1.symm)
          have hnc : ¬(cls ≠ [] ∧ cls <+: (c :: subHighlight opn cls pat cs)) := by
            rintro ⟨_, hp⟩
            rw [hch] at hp
            exact hc ((List.cons_prefix_cons.mp hp).1.symm)
          rw [stripMarks_cons_other opn cls c _ hno hnc]
          have hlcs : cs.length ≤ n := by
            simp only [List.length_cons] at hlen
            omega
          rw [ih cs hlcs (fun d hd => hcl d (List.mem_cons_of_mem c hd))]
  intro s
  exact main s.length s (le_refl _)

theorem foldl_walkStep (ws : List (String × Content)) :
    ∀ st : List (String × DocInfo) × List String,
      ws.foldl walkStep st =
        (st.1 ++ ws.filterMap walkEntry, st.2 ++ (ws.filterMap walkEntry).map Prod.fst) := by
  induction ws with
  | nil =>
    intro st
    cases st
    simp
  | cons f fs ih =>
    intro st
    rw [List.foldl_cons, ih (walkStep st f)]
    cases hwe : walkEntry f with
    | some d =>
      rw [walkStep, hwe]
      simp [List.filterMap_cons, hwe]
    | none =>
      rw [walkStep, hwe]
      simp [List.filterMap_cons, hwe]

theorem walkEntry_name (f : String × Content) (n : String) (i : DocInfo)
    (h : walkEntry f = some (n, i)) : f.1 = n := by
  rw [walkEntry] at h
  by_cases hc : endsLower f.1 ".pdf".data ∨ endsLower f.1 ".docx".data
  · rw [if_pos hc] at h
    exact (Prod.mk.injEq _ _ _ _ ▸ Option.some.injEq _ _ ▸ h).1
  · rw [if_neg hc] at h
    cases h

theorem addFile_view (ws : List (String × Content)) (n : String) (c : Content) :
    wsView (addFile ws n c) = addFileV (wsView ws) n (extractTextA c) := by
  rw [addFile, addFileV]
  have hany : (wsView ws).any (fun q => q.1 == n) = ws.any (fun q => q.1 == n) := by
    induction ws with
    | nil => rfl
    | cons q qs ih =>
      rw [wsView, List.map_cons, List.any_cons, ← wsView, ih, List.any_cons]
  by_cases h : ws.any (fun q => q.1 == n)
  · rw [if_pos h, if_pos (hany ▸ h), wsView, wsView, List.map_map, List.map_map]
    refine List.map_congr_left ?_
    intro q _
    by_cases hq : q.1 = n
    · simp [Function.comp, hq]
    · simp [Function.comp, hq]
  · rw [if_neg h, if_neg (by rw [hany]; exact h), wsView, wsView, List.map_append]
    rfl

theorem extractAll_view (es : List (String × Nat × Content)) :
    ∀ ws, wsView (extractAll ws es) =
      (es.map entryView).foldl (fun w e => addFileV w e.1 e.2) (wsView ws) := by
  induction es with
  | nil =>
    intro ws
    rfl
  | cons e es ih =>
    intro ws
    rw [extractAll, List.foldl_cons, ← extractAll, ih (addFile ws e.1 e.2.2),
      List.map_cons, List.foldl_cons, addFile_view]
    rfl

theorem puStep1_view (st : List (String × Content) × List String) (it : UploadItem) :
    (wsView (puStep1 st it).1, (puStep1 st it).2) =
      viewStep1 (wsView st.1, st.2) (itemView it) := by
  by_cases hp : it.path = ""
  · simp [puStep1, viewStep1, itemView, hp]
  · by_cases hf : it.found = false
    · simp [puStep1, viewStep1, itemView, hp, hf]
    · by_cases hz : endsLower it.path ".zip".data
      · cases hc : it.content with
        | arch es =>
          simp [puStep1, viewStep1, itemView, hp, hf, hz, contentView, hc, extractAll_view]
        | doc p =>
          simp [puStep1, viewStep1, itemView, hp, hf, hz, contentView, hc]
      · simp [puStep1, viewStep1, itemView, hp, hf, hz, addFile_view]

theorem foldl_puStep1_view (items : List UploadItem) :
    ∀ (ws : List (String × Content)) (errs : List String),
      (wsView ((items.foldl puStep1 (ws, errs)).1), (items.foldl puStep1 (ws, errs)).2) =
        (items.map itemView).foldl viewStep1 (wsView ws, errs) := by
  induction items with
  | nil =>
    intro ws errs
    rfl
  | cons it its ih =>
    intro ws errs
    rw [List.foldl_cons, List.map_cons, List.foldl_cons]
    have h1 := puStep1_view (ws, errs) it
    rw [← h1]
    have h2 := ih (puStep1 (ws, errs) it).1 (puStep1 (ws, errs) it).2
    rw [← h2]

theorem walkStep_view (st : List (String × DocInfo) × List String) (f : String × Content) :
    walkStep st f = walkStepV st (f.1, extractTextA f.2) := rfl

theorem foldl_walkStep_view (ws : List (String × Content)) :
    ∀ st, ws.foldl walkStep st = (wsView ws).foldl walkStepV st := by
  induction ws with
  | nil =>
    intro st
    rfl
  | cons f fs ih =>
    intro st
    rw [List.foldl_cons, wsView, List.map_cons, List.foldl_cons, ← wsView,
      ← walkStep_view, ih]

theorem process_upload_view (items : List UploadItem) :
    process_upload items = processView (items.map itemView) := by
  cases items with
  | nil => rfl
  | cons it its =>
    have hl : process_upload (it :: its) =
        { docs := ((((it :: its).foldl puStep1 ([], [])).1).foldl walkStep ([], [])).1
          processed := ((((it :: its).foldl puStep1 ([], [])).1).foldl walkStep ([], [])).2
          errors := ((it :: its).foldl puStep1 ([], [])).2
          trace := [REvent.acquire] } := rfl
    have hr : processView ((it :: its).map itemView) =
        { docs := (((((it :: its).map itemView).foldl viewStep1 ([], [])).1).foldl walkStepV ([], [])).1
          processed := (((((it :: its).map itemView).foldl viewStep1 ([], [])).1).foldl walkStepV ([], [])).2
          errors := (((it :: its).map itemView).foldl viewStep1 ([], [])).2
          trace := [REvent.acquire] } := rfl
    have h1 := foldl_puStep1_view (it :: its) [] []
    have hws : wsView ((it :: its).foldl puStep1 ([], [])).1 =
        (((it :: its).map itemView).foldl viewStep1 ([], [])).1 := congrArg Prod.fst h1
    have herrs : ((it :: its).foldl puStep1 ([], [])).2 =
        (((it :: its).map itemView).foldl viewStep1 ([], [])).2 := congrArg Prod.snd h1
    have hdocs : (((it :: its).foldl puStep1 ([], [])).1).foldl walkStep ([], []) =
        ((((it :: its).map itemView).foldl viewStep1 ([], [])).1).foldl walkStepV ([], []) := by
      rw [foldl_walkStep_view, hws]
    rw [hl, hr, hdocs, herrs]

theorem mem_unique_of_nodup_keys {β : Type} :
    ∀ (l : List (String × β)), (l.map Prod.fst).Nodup →
      ∀ (a : String) (b₁ b₂ : β), (a, b₁) ∈ l → (a, b₂) ∈ l → b₁ = b₂ := by
  intro l
  induction l with
  | nil =>
    intro _ a b₁ b₂ h1 _
    cases h1
  | cons q qs ih =>
    intro hnd a b₁ b₂ h1 h2
    rw [List.map_cons, List.nodup_cons] at hnd
    rcases List.mem_cons.mp h1 with he1 | hm1
    · rcases List.mem_cons.mp h2 with he2 | hm2
      · rw [← he1] at he2
        exact ((Prod.mk.injEq _ _ _ _).mp he2).2.symm
      · exfalso
        apply hnd.1
        rw [← he1]
        have := List.mem_map_of_mem Prod.fst hm2
        simpa using this
    · rcases List.mem_cons.mp h2 with he2 | hm2
      · exfalso
        apply hnd.1
        rw [← he2]
        have := List.mem_map_of_mem Prod.fst hm1
        simpa using this
      · exact ih hnd.2 a b₁ b₂ hm1 hm2

theorem addFile_keys_nodup (ws : List (String × Content)) (n : String) (c : Content)
    (h : (ws.map Prod.fst).Nodup) : ((addFile ws n c).map Prod.fst).Nodup := by
  rw [addFile]
  by_cases hany : ws.any (fun q => q.1 == n)
  · rw [if_pos hany]
    have hkeys : (ws.map (fun q => if q.1 == n then (n, c) else q)).map Prod.fst =
        ws.map Prod.fst := by
      rw [List.map_map]
      refine List.map_congr_left ?_
      intro q _
      by_cases hq : q.1 = n
      · simp [Function.comp, hq]
      · simp [Function.comp, hq]
    rw [hkeys]
    exact h
  · rw [if_neg hany, List.map_append]
    refine List.Nodup.append h (List.nodup_singleton n) ?_
    intro a ha hb
    rcases List.mem_singleton.mp hb with rfl
    rw [List.any_eq_true] at hany
    push_neg at hany
    obtain ⟨q, hq, hq2⟩ := List.mem_map.mp ha
    exact hany q hq (beq_iff_eq.mpr hq2)

theorem extractAll_keys_nodup (es : List (String × Nat × Content)) :
    ∀ ws, (ws.map Prod.fst).Nodup → ((extractAll ws es).map Prod.fst).Nodup := by
  induction es with
  | nil =>
    intro ws h
    exact h
  | cons e es ih =>
    intro ws h
    rw [extractAll, List.foldl_cons, ← extractAll]
    exact ih _ (addFile_keys_nodup ws e.1 e.2.2 h)

theorem puStep1_keys_nodup (st : List (String × Content) × List String) (it : UploadItem)
    (h : (st.1.map Prod.fst).Nodup) : (((puStep1 st it).1).map Prod.fst).Nodup := by
  rw [puStep1]
  by_cases hp : it.path = ""
  · rw [if_pos hp]
    exact h
  · rw [if_neg hp]
    by_cases hf : it.found = false
    · rw [if_pos hf]
      exact h
    · rw [if_neg hf]
      by_cases hz : endsLower it.path ".zip".data
      · rw [if_pos hz]
        cases it.content with
        | arch es => exact extractAll_keys_nodup es st.1 h
        | doc p => exact h
      · rw [if_neg hz]
        exact addFile_keys_nodup st.1 _ it.content h

theorem foldl_puStep1_keys_nodup (items : List UploadItem) :
    ∀ st : List (String × Content) × List String, (st.1.map Prod.fst).Nodup →
      (((items.foldl puStep1 st).1).map Prod.fst).Nodup := by
  induction items with
  | nil =>
    intro st h
    exact h
  | cons it its ih =>
    intro st h
    rw [List.foldl_cons]
    exact ih _ (puStep1_keys_nodup st it h)

theorem filterMap_walkEntry_keys (ws : List (String × Content)) :
    ((ws.filterMap walkEntry).map Prod.fst).Sublist (ws.map Prod.fst) := by
  induction ws with
  | nil => exact List.Sublist.refl []
  | cons f fs ih =>
    rw [List.filterMap_cons]
    cases hwe : walkEntry f with
    | none =>
      rw [List.map_cons]
      exact ih.cons f.1
    | some d =>
      rw [List.map_cons, List.map_cons]
      rw [show d.1 = f.1 by
        cases d
        exact (walkEntry_name f _ _ hwe).symm]
      exact ih.cons₂ f.1

theorem process_upload_docs_keys_nodup (items : List UploadItem) :
    (((process_upload items).docs).map Prod.fst).Nodup := by
  cases items with
  | nil => exact List.nodup_nil
  | cons it its =>
    have hdocs : (process_upload (it :: its)).docs =
        (((it :: its).foldl puStep1 ([], [])).1).filterMap walkEntry := by
      rw [show (process_upload (it :: its)).docs =
        ((((it :: its).foldl puStep1 ([], [])).1).foldl walkStep ([], [])).1 from rfl,
        foldl_walkStep]
      rfl
    rw [hdocs]
    have hws := foldl_puStep1_keys_nodup (it :: its) ([], []) List.nodup_nil
    exact (filterMap_walkEntry_keys _).nodup hws

theorem docHit_none_of_ws (n : String) (info : DocInfo) (k : List Char)
    (htext : pyStrip info.text.data = []) (hk : pyStrip k ≠ []) :
    docHit (pyStrip k) (n, info) = none := by
  rw [docHit]
  by_cases hnil : info.text.data = []
  · rw [if_pos hnil]
  · rw [if_neg hnil]
    have hws : ∀ c ∈ info.text.data, wsB c = true := (pyStrip_eq_nil_iff _).mp htext
    have hcnt : pyCount (lowerL (pyStrip k)) (lowerL info.text.data) = 0 := by
      by_contra hpos
      have hinf := (pyCount_pos_iff (lowerL (pyStrip k)) (lowerL info.text.data)).mp
        (Nat.pos_of_ne_zero hpos)
      obtain ⟨c, hcmem, hcws⟩ := exists_nonws_of_pyStrip_ne_nil hk
      have hclow : lowerChar c ∈ lowerL (pyStrip k) := List.mem_map_of_mem lowerChar hcmem
      have hsub : lowerChar c ∈ lowerL info.text.data := hinf.subset hclow
      rw [lowerL_of_all_ws hws] at hsub
      exact absurd (hws _ hsub) (by rw [wsB_lowerChar hcws]; exact Bool.false_ne_true)
    rw [hcnt]
    simp

theorem suffix_of_suffix_le (s₁ s₂ l : List Char)
    (h1 : s₁ <:+ l) (h2 : s₂ <:+ l) (hle : s₁.length ≤ s₂.length) : s₁ <:+ s₂ := by
  have p1 : s₁.reverse <+: l.reverse := List.reverse_prefix.mpr h1
  have p2 : s₂.reverse <+: l.reverse := List.reverse_prefix.mpr h2
  have hle' : s₁.reverse.length ≤ s₂.reverse.length := by
    rw [List.length_reverse, List.length_reverse]
    exact hle
  have hp := List.prefix_of_prefix_length_le p1 p2 hle'
  exact List.reverse_prefix.mp hp

theorem endsLower_zip_not_doc (n : String) (h : endsLower n ".zip".data) :
    ¬ endsLower n ".pdf".data ∧ ¬ endsLower n ".docx".data := by
  constructor
  · intro hp
    have := suffix_of_suffix_le ".zip".data ".pdf".data (lowerL n.data) h hp (by decide)
    revert this
    decide
  · intro hd
    have := suffix_of_suffix_le ".zip".data ".docx".data (lowerL n.data) h hd (by decide)
    revert this
    decide

theorem process_upload_docs_cons (it : UploadItem) (its : List UploadItem) :
    (process_upload (it :: its)).docs =
      (((it :: its).foldl puStep1 ([], [])).1).filterMap walkEntry := by
  rw [show (process_upload (it :: its)).docs =
      ((((it :: its).foldl puStep1 ([], [])).1).foldl walkStep ([], [])).1 from rfl,
    foldl_walkStep]
  rfl

theorem process_upload_processed_eq (items : List UploadItem) :
    (process_upload items).processed = ((process_upload items).docs).map Prod.fst := by
  cases items with
  | nil => rfl
  | cons it its =>
    rw [process_upload_docs_cons,
      show (process_upload (it :: its)).processed =
        ((((it :: its).foldl puStep1 ([], [])).1).foldl walkStep ([], [])).2 from rfl,
      foldl_walkStep]
    rfl

theorem walkEntry_some_cond (f : String × Content) (d : String × DocInfo)
    (h : walkEntry f = some d) :
    endsLower f.1 ".pdf".data ∨ endsLower f.1 ".docx".data := by
  by_cases hc : endsLower f.1 ".pdf".data ∨ endsLower f.1 ".docx".data
  · exact hc
  · rw [walkEntry, if_neg hc] at h
    cases h

theorem walkEntry_note (f : String × Content) (n : String) (info : DocInfo)
    (h : walkEntry f = some (n, info)) :
    info.note = (if pyStrip info.text.data = [] then noteStr else "") := by
  by_cases hc : endsLower f.1 ".pdf".data ∨ endsLower f.1 ".docx".data
  · rw [walkEntry, if_pos hc] at h
    have h2 := (Option.some.injEq _ _ ▸ h)
    have htext : info.text = extractTextA f.2 := by
      rw [← ((Prod.mk.injEq _ _ _ _).mp h2).2]
    have hnote : info.note = (if pyStrip (extractTextA f.2).data = [] then noteStr else "") := by
      rw [← ((Prod.mk.injEq _ _ _ _).mp h2).2]
    rw [hnote, htext]
  · rw [walkEntry, if_neg hc] at h
    cases h

theorem docHit_eq_some_iff (k : List Char) (p : String × DocInfo) (x : String) (cnt : Nat) :
    docHit k p = some (x, cnt) ↔
      x = p.1 ∧ p.2.text.data ≠ [] ∧ cnt = pyCount (lowerL k) (lowerL p.2.text.data) ∧
        0 < pyCount (lowerL k) (lowerL p.2.text.data) := by
  simp only [docHit]
  by_cases h1 : p.2.text.data = []
  · rw [if_pos h1]
    constructor
    · intro h
      cases h
    · rintro ⟨_, h2, _⟩
      exact absurd h1 h2
  · rw [if_neg h1]
    by_cases h2 : 0 < pyCount (lowerL k) (lowerL p.2.text.data)
    · rw [if_pos h2]
      constructor
      · intro h
        have h3 := (Option.some.injEq _ _ ▸ h)
        exact ⟨((Prod.mk.injEq _ _ _ _).mp h3).1.symm, h1,
          ((Prod.mk.injEq _ _ _ _).mp h3).2.symm, h2⟩
      · rintro ⟨hx, _, hc, _⟩
        rw [hx, hc]
    · rw [if_neg h2]
      constructor
      · intro h
        cases h
      · rintro ⟨_, _, _, h4⟩
        exact absurd h4 h2

/-- C9 counterexample: the claim says the temporary extraction directory is
deleted unconditionally after all entries are consumed; on a concrete call
that expands a ZIP archive (with one good and one failing entry), the
resource trace of `process_upload` contains no release of the directory
acquired by `tempfile.mkdtemp` — the source has no `rmtree` at all. -/
theorem c9_tmpdir_not_released_counterexample :
    REvent.release ∉ (process_upload [⟨"batch.zip", true,
      Content.arch [("a.pdf", 3, Content.doc (Except.ok "hello")),
                    ("b.docx", 4, Content.doc (Except.error "broken"))]⟩]).trace := by
  decide

/-- C9 (amended): `process_upload` acquires a fresh temporary directory on
every call (before the empty-input early return) and never releases it on
any exit path: the resource trace of every call is exactly the single
acquisition. -/
theorem c9_tmpdir_acquired_never_released (items : List UploadItem) :
    (process_upload items).trace = [REvent.acquire] := by
  cases items <;> rfl

/-- C4: the result list of `semantic_keyword_search` is sorted in descending
score order; the stable descending sort preserves, score class by score
class, the pre-sort document (upload) order, so ties are broken by upload
order (each document yields at most one record, so location order is
vacuous); and a smaller `top_k` yields exactly a prefix of the list a larger
`top_k` yields, so truncation does not affect the scores of surviving
records.  The engine is a pure function of the query and corpus, hence
deterministic. -/
theorem c4_ranking_sorted_stable_topk :
    (∀ (q : String) (docs : List String) (metas : List PyMeta) (k : Nat),
        (semantic_keyword_search q docs metas k).Pairwise (fun a b => b.score ≤ a.score)) ∧
      (∀ (terms : List String) (docs : List String) (metas : List PyMeta) (s : ℚ),
        (sortByDesc (fun r => r.score) (collectResults terms docs metas)).filter
            (fun r => decide (r.score = s)) =
          (collectResults terms docs metas).filter (fun r => decide (r.score = s))) ∧
      (∀ (q : String) (docs : List String) (metas : List PyMeta) (k k' : Nat), k ≤ k' →
        semantic_keyword_search q docs metas k =
          (semantic_keyword_search q docs metas k').take k) := by
  refine ⟨?_, ?_, ?_⟩
  · intro q docs metas k
    rw [semantic_keyword_search]
    by_cases h1 : q = "" ∨ docs = []
    · rw [if_pos h1]
      exact List.Pairwise.nil
    · rw [if_neg h1]
      by_cases h2 : queryTermsOf q = []
      · rw [if_pos h2]
        exact List.Pairwise.nil
      · rw [if_neg h2]
        exact pairwise_take k (pairwise_sortByDesc (fun r : SResult => r.score) _)
  · intro terms docs metas s
    exact filter_sortByDesc (fun r : SResult => r.score) s _
  · intro q docs metas k k' hk
    rw [semantic_keyword_search, semantic_keyword_search]
    by_cases h1 : q = "" ∨ docs = []
    · rw [if_pos h1, if_pos h1, List.take_nil]
    · rw [if_neg h1, if_neg h1]
      by_cases h2 : queryTermsOf q = []
      · rw [if_pos h2, if_pos h2, List.take_nil]
      · rw [if_neg h2, if_neg h2, List.take_take, min_eq_left hk]

theorem c4_ranking_sorted_stable_topk_witness :
    (1 ≤ 2) ∧
      semantic_keyword_search "budget" ["the budget", "no budget here today"]
          [mkMeta "a.pdf" 3 "the budget", mkMeta "b.pdf" 5 "no budget here today"] 1 =
        (semantic_keyword_search "budget" ["the budget", "no budget here today"]
          [mkMeta "a.pdf" 3 "the budget", mkMeta "b.pdf" 5 "no budget here today"] 2).take 1 :=
  ⟨by decide,
    c4_ranking_sorted_stable_topk.2.2 "budget" ["the budget", "no budget here today"]
      [mkMeta "a.pdf" 3 "the budget", mkMeta "b.pdf" 5 "no budget here today"] 1 2 (by decide)⟩

/-- C10: terms of length at most 2 are discarded before matching.  A query
whose whitespace-separated tokens are all short yields the empty result list
regardless of corpus; and two nonempty queries with the same surviving term
list produce identical results, so short terms never contribute to scores or
highlights. -/
theorem c10_short_terms_discarded :
    (∀ (q : String) (docs : List String) (metas : List PyMeta) (k : Nat),
        (∀ t ∈ queryTokens q, t.length ≤ 2) →
        semantic_keyword_search q docs metas k = []) ∧
      (∀ (q₁ q₂ : String) (docs : List String) (metas : List PyMeta) (k : Nat),
        queryTermsOf q₁ = queryTermsOf q₂ → (q₁ = "" ↔ q₂ = "") →
        semantic_keyword_search q₁ docs metas k = semantic_keyword_search q₂ docs metas k) := by
  constructor
  · intro q docs metas k hshort
    rw [semantic_keyword_search]
    by_cases h1 : q = "" ∨ docs = []
    · rw [if_pos h1]
    · rw [if_neg h1]
      have hterms : queryTermsOf q = [] := by
        rw [queryTermsOf, List.filter_eq_nil_iff]
        intro t ht
        have := hshort t ht
        simpa using Nat.not_lt.mpr this
      rw [if_pos hterms]
  · intro q₁ q₂ docs metas k hterms hiff
    by_cases h1 : q₁ = ""
    · rw [semantic_keyword_search, semantic_keyword_search, if_pos (Or.inl h1),
        if_pos (Or.inl (hiff.mp h1))]
    · have h2 : ¬ q₂ = "" := fun he => h1 (hiff.mpr he)
      rw [semantic_keyword_search, semantic_keyword_search]
      by_cases hd : docs = []
      · rw [if_pos (Or.inr hd), if_pos (Or.inr hd)]
      · have hng₁ : ¬(q₁ = "" ∨ docs = []) := by
          push_neg
          exact ⟨h1, hd⟩
        have hng₂ : ¬(q₂ = "" ∨ docs = []) := by
          push_neg
          exact ⟨h2, hd⟩
        rw [if_neg hng₁, if_neg hng₂, hterms]

theorem c10_short_terms_discarded_witness :
    ((∀ t ∈ queryTokens "AI", t.length ≤ 2) ∧
        semantic_keyword_search "AI" ["the AI roadmap"] [mkMeta "m.pdf" 3 "the AI roadmap"] 5 = []) ∧
      ((queryTermsOf "AI budget" = queryTermsOf "budget AI") ∧
        semantic_keyword_search "AI budget" ["the budget"] [mkMeta "m.pdf" 3 "the budget"] 5 =
          semantic_keyword_search "budget AI" ["the budget"] [mkMeta "m.pdf" 3 "the budget"] 5) :=
  ⟨⟨by decide,
      c10_short_terms_discarded.1 "AI" ["the AI roadmap"] [mkMeta "m.pdf" 3 "the AI roadmap"] 5
        (by decide)⟩,
    ⟨by decide,
      c10_short_terms_discarded.2 "AI budget" "budget AI" ["the budget"]
        [mkMeta "m.pdf" 3 "the budget"] 5 (by decide) (by decide)⟩⟩

/-- C3: searching with an empty query returns the empty list (and the
Gradio literal search returns its guidance message with no results, not an
exception); searching an empty corpus — no documents, or a batch in which
every file failed or produced empty extraction — returns the empty list. -/
theorem c3_empty_query_empty_corpus :
    (∀ (docs : List String) (metas : List PyMeta) (k : Nat),
        semantic_keyword_search "" docs metas k = []) ∧
      (∀ (q : String) (metas : List PyMeta) (k : Nat),
        semantic_keyword_search q [] metas k = []) ∧
      (∀ (files : List UFile) (q : String) (k : Nat),
        (∀ f ∈ files, (fileText f).toOption.getD "" = "") →
          semantic_keyword_search q (handleFileUpload files).documents
            (handleFileUpload files).metadata k = []) ∧
      (∀ D : List (String × DocInfo), search_docs "" D = { guidance := true, results := [] }) ∧
      (∀ q : String, (search_docs q []).results = []) := by
  refine ⟨?_, ?_, ?_, ?_, ?_⟩
  · intro docs metas k
    rw [semantic_keyword_search, if_pos (Or.inl rfl)]
  · intro q metas k
    rw [semantic_keyword_search, if_pos (Or.inr rfl)]
  · intro files q k h
    have hdocs := (handleFileUpload_docs_nil files ?_).1
    · rw [semantic_keyword_search, if_pos (Or.inr hdocs)]
    · intro f hf t hft
      have := h f hf
      rw [hft] at this
      exact this
  · intro D
    rw [search_docs, if_pos (Or.inl rfl)]
  · intro q
    rw [search_docs]
    by_cases h : q.data = [] ∨ pyStrip q.data = []
    · rw [if_pos h]
    · rw [if_neg h]
      rfl

theorem c3_empty_query_empty_corpus_witness :
    ((∀ f ∈ [(⟨"bad.pdf", 7, Content.doc (Except.error "corrupt")⟩ : UFile),
              ⟨"scan.pdf", 9, Content.doc (Except.ok "")⟩,
              ⟨"notes.txt", 4, Content.doc (Except.ok "text")⟩],
        (fileText f).toOption.getD "" = "") ∧
      semantic_keyword_search "budget"
        (handleFileUpload [⟨"bad.pdf", 7, Content.doc (Except.error "corrupt")⟩,
          ⟨"scan.pdf", 9, Content.doc (Except.ok "")⟩,
          ⟨"notes.txt", 4, Content.doc (Except.ok "text")⟩]).documents
        (handleFileUpload [⟨"bad.pdf", 7, Content.doc (Except.error "corrupt")⟩,
          ⟨"scan.pdf", 9, Content.doc (Except.ok "")⟩,
          ⟨"notes.txt", 4, Content.doc (Except.ok "text")⟩]).metadata 5 = []) :=
  ⟨by decide,
    c3_empty_query_empty_corpus.2.2.1
      [⟨"bad.pdf", 7, Content.doc (Except.error "corrupt")⟩,
        ⟨"scan.pdf", 9, Content.doc (Except.ok "")⟩,
        ⟨"notes.txt", 4, Content.doc (Except.ok "text")⟩] "budget" 5 (by decide)⟩

/-- C1: a per-file extraction failure does not raise past the processing
boundary.  `handleFileUpload` is a total function (the loop catches every
extraction exception), the failing file is surfaced as the expected error
line-item, and the documents and metadata of the batch are exactly those
the remaining files contribute — every other file is still processed. -/
theorem c1_upload_failure_isolated (xs ys : List UFile) (bad : UFile) (e : String)
    (hbad : fileText bad = Except.error e) :
    (handleFileUpload (xs ++ bad :: ys)).documents =
        (handleFileUpload xs).documents ++ (handleFileUpload ys).documents ∧
      (handleFileUpload (xs ++ bad :: ys)).metadata =
        (handleFileUpload xs).metadata ++ (handleFileUpload ys).metadata ∧
      (handleFileUpload (xs ++ bad :: ys)).errors =
        (handleFileUpload xs).errors ++
          ("Error processing " ++ bad.name ++ ": " ++ e) :: (handleFileUpload ys).errors := by
  have hsplit : handleFileUpload (xs ++ bad :: ys) =
      happend (handleFileUpload xs) (happend (handleFileUpload [bad]) (handleFileUpload ys)) := by
    rw [show xs ++ bad :: ys = xs ++ ([bad] ++ ys) from rfl, handleFileUpload_append,
      handleFileUpload_append]
  rw [hsplit, handleFileUpload_single_error bad e hbad]
  refine ⟨?_, ?_, ?_⟩ <;> simp [happend]

theorem c1_upload_failure_isolated_witness :
    (fileText ⟨"bad.pdf", 7, Content.doc (Except.error "corrupt")⟩ =
        Except.error "PDF processing error: corrupt") ∧
      (handleFileUpload
          [⟨"good.docx", 5, Content.doc (Except.ok "hello world")⟩,
            ⟨"bad.pdf", 7, Content.doc (Except.error "corrupt")⟩]).documents =
        (handleFileUpload [⟨"good.docx", 5, Content.doc (Except.ok "hello world")⟩]).documents ++
          (handleFileUpload ([] : List UFile)).documents := by
  refine ⟨rfl, ?_⟩
  have h := c1_upload_failure_isolated
    [⟨"good.docx", 5, Content.doc (Except.ok "hello world")⟩] []
    ⟨"bad.pdf", 7, Content.doc (Except.error "corrupt")⟩
    "PDF processing error: corrupt" rfl
  exact h.1

/-- C6: ZIP expansion goes one level only.  In the Streamlit variant, a ZIP
entry that is itself a ZIP is skipped by the entry filter, so the collected
file list is as if the entry were absent — independent of the inner ZIP's
contents.  In the Gradio variant, `extractall` writes a nested archive out
as a `.zip` file which the pdf/docx walk never opens, so the entire result
of `process_upload` is unchanged when the inner ZIP's entries are replaced:
nothing inside a nested ZIP is ever indexed or searchable. -/
theorem c6_nested_zip_not_expanded :
    (∀ (pre post : List (String × Nat × Content)) (n : String) (sz : Nat)
        (es : List (String × Nat × Content)), endsLower n ".zip".data →
        collectZipFiles (pre ++ (n, sz, Content.arch es) :: post) =
          collectZipFiles (pre ++ post)) ∧
      (∀ (pre post : List UploadItem) (path : String) (fnd : Bool)
        (zpre zpost : List (String × Nat × Content)) (n : String) (sz sz' : Nat)
        (es es' : List (String × Nat × Content)),
        process_upload (pre ++
            ⟨path, fnd, Content.arch (zpre ++ (n, sz, Content.arch es) :: zpost)⟩ :: post) =
          process_upload (pre ++
            ⟨path, fnd, Content.arch (zpre ++ (n, sz', Content.arch es') :: zpost)⟩ :: post)) := by
  constructor
  · intro pre post n sz es hzip
    have hskip : ¬(endsLower n ".pdf".data ∨ endsLower n ".docx".data) := by
      have h := endsLower_zip_not_doc n hzip
      push_neg
      exact h
    rw [collectZipFiles, collectZipFiles, List.filterMap_append, List.filterMap_append,
      List.filterMap_cons]
    rw [if_neg hskip]
  · intro pre post path fnd zpre zpost n sz sz' es es'
    rw [process_upload_view, process_upload_view]
    have hitem : itemView ⟨path, fnd, Content.arch (zpre ++ (n, sz, Content.arch es) :: zpost)⟩ =
        itemView ⟨path, fnd, Content.arch (zpre ++ (n, sz', Content.arch es') :: zpost)⟩ := by
      rw [itemView, itemView]
      simp [contentView, extractTextA, entryView, List.map_append, List.map_cons]
    rw [List.map_append, List.map_append, List.map_cons, List.map_cons, hitem]

theorem c6_nested_zip_not_expanded_witness :
    endsLower "inner.zip" ".zip".data ∧
      collectZipFiles ([("a.pdf", 3, Content.doc (Except.ok "visible"))] ++
          ("inner.zip", 9,
            Content.arch [("secret.pdf", 4, Content.doc (Except.ok "hidden"))]) :: []) =
        collectZipFiles ([("a.pdf", 3, Content.doc (Except.ok "visible"))] ++ []) :=
  ⟨by decide,
    c6_nested_zip_not_expanded.1 [("a.pdf", 3, Content.doc (Except.ok "visible"))] []
      "inner.zip" 9 [("secret.pdf", 4, Content.doc (Except.ok "hidden"))] (by decide)⟩

/-- C8 counterexample: the claim says `.txt` files are a supported input
type read line by line.  A well-formed nonempty `.txt` file contributes
nothing anywhere: `handle_file_upload` produces no document, no metadata and
no error for it (its extension matches neither extraction branch), and
`process_upload` of the Gradio variant neither indexes nor lists it. -/
theorem c8_txt_not_processed_counterexample :
    handleFileUpload [⟨"notes.txt", 11, Content.doc (Except.ok "alpha\nbeta")⟩] =
        { documents := [], metadata := [], errors := [] } ∧
      (process_upload [⟨"notes.txt", true, Content.doc (Except.ok "alpha\nbeta")⟩]).docs = [] ∧
      (process_upload [⟨"notes.txt", true, Content.doc (Except.ok "alpha\nbeta")⟩]).processed = [] := by
  refine ⟨by decide, by decide, by decide⟩

/-- C8 (amended): plain-text files are not a supported input type in this
code.  A file whose name ends in neither `.pdf` nor `.docx` contributes
nothing to `handle_file_upload` — removing it from the batch leaves the
result unchanged — and every name `process_upload` ever processes ends in
`.pdf` or `.docx`, so a `.txt` file is never split into line units or
indexed. -/
theorem c8_txt_unsupported (xs ys : List UFile) (f : UFile)
    (h1 : ¬ endsLower f.name ".pdf".data) (h2 : ¬ endsLower f.name ".docx".data) :
    handleFileUpload (xs ++ f :: ys) = handleFileUpload (xs ++ ys) ∧
      ∀ (items : List UploadItem) (m : String), m ∈ (process_upload items).processed →
        endsLower m ".pdf".data ∨ endsLower m ".docx".data := by
  constructor
  · have hf : fileText f = Except.ok "" := by
      rw [fileText, if_neg h1, if_neg h2]
    rw [show xs ++ f :: ys = xs ++ ([f] ++ ys) from rfl, handleFileUpload_append,
      handleFileUpload_append, handleFileUpload_single_empty f hf,
      handleFileUpload_append, happend_empty_left]
  · intro items m hm
    rw [process_upload_processed_eq] at hm
    obtain ⟨⟨m', info⟩, hmem, hfst⟩ := List.mem_map.mp hm
    cases items with
    | nil =>
      rw [show (process_upload ([] : List UploadItem)).docs = [] from rfl] at hmem
      cases hmem
    | cons it its =>
      rw [process_upload_docs_cons] at hmem
      obtain ⟨g, _, hge⟩ := List.mem_filterMap.mp hmem
      have hcond := walkEntry_some_cond g (m', info) hge
      have hname := walkEntry_name g m' info hge
      rw [← hfst, ← hname]
      exact hcond

theorem c8_txt_unsupported_witness :
    ((¬ endsLower "notes.txt" ".pdf".data) ∧ (¬ endsLower "notes.txt" ".docx".data)) ∧
      handleFileUpload ([⟨"a.pdf", 3, Content.doc (Except.ok "Budget ok.")⟩] ++
          (⟨"notes.txt", 11, Content.doc (Except.ok "alpha\nbeta")⟩ : UFile) :: []) =
        handleFileUpload ([⟨"a.pdf", 3, Content.doc (Except.ok "Budget ok.")⟩] ++ []) :=
  ⟨⟨by decide, by decide⟩,
    (c8_txt_unsupported [⟨"a.pdf", 3, Content.doc (Except.ok "Budget ok.")⟩] []
      ⟨"notes.txt", 11, Content.doc (Except.ok "alpha\nbeta")⟩ (by decide) (by decide)).1⟩

/-- C7 counterexample: the claim says every file with failed or empty
extraction is still recorded as a line-item in the processing summary.  In
`handle_file_upload`, a PDF whose extraction succeeds with empty text (a
scanned PDF) is silently skipped: it appears in no document, no metadata
entry and no error line-item — nothing records it. -/
theorem c7_empty_extraction_unrecorded_counterexample :
    handleFileUpload [⟨"scan.pdf", 10, Content.doc (Except.ok "")⟩] =
      { documents := [], metadata := [], errors := [] } := by
  decide

/-- C7 (amended): in the Gradio variant's `process_upload`, a pdf/docx file
whose extracted text strips to nothing is still recorded: it is listed in
`processed`, its `DOCS` entry carries the diagnostic note, and it can never
contribute a search hit (it is searchable-empty).  In the Streamlit
variant's `handle_file_upload`, a file whose extraction raises is surfaced
as an error line-item only, and a file with empty successful extraction is
silently omitted from the summary (see the counterexample). -/
theorem c7_no_text_recorded_with_note (items : List UploadItem) (n : String) (info : DocInfo)
    (hmem : (n, info) ∈ (process_upload items).docs)
    (htext : pyStrip info.text.data = []) :
    n ∈ (process_upload items).processed ∧ info.note = noteStr ∧
      ∀ (kw : String) (cnt : Nat),
        (n, cnt) ∉ (search_docs kw (process_upload items).docs).results := by
  refine ⟨?_, ?_, ?_⟩
  · rw [process_upload_processed_eq]
    exact List.mem_map_of_mem Prod.fst hmem
  · cases items with
    | nil =>
      rw [show (process_upload ([] : List UploadItem)).docs = [] from rfl] at hmem
      cases hmem
    | cons it its =>
      rw [process_upload_docs_cons] at hmem
      obtain ⟨g, _, hge⟩ := List.mem_filterMap.mp hmem
      rw [walkEntry_note g n info hge, if_pos htext]
  · intro kw cnt hres
    rw [search_docs] at hres
    by_cases hg : kw.data = [] ∨ pyStrip kw.data = []
    · rw [if_pos hg] at hres
      exact List.not_mem_nil _ hres
    · rw [if_neg hg] at hres
      have hkne : pyStrip kw.data ≠ [] := by
        push_neg at hg
        exact hg.2
      obtain ⟨⟨n', i'⟩, hmem', hdh⟩ := List.mem_filterMap.mp hres
      have hinv := (docHit_eq_some_iff (pyStrip kw.data) (n', i') n cnt).mp hdh
      have hn : n = n' := hinv.1
      rw [← hn] at hmem' hdh
      have hieq : i' = info :=
        mem_unique_of_nodup_keys _ (process_upload_docs_keys_nodup items) n i' info hmem' hmem
      rw [hieq] at hdh
      rw [docHit_none_of_ws n info kw.data htext hkne] at hdh
      cases hdh

theorem c7_no_text_recorded_with_note_witness :
    ((("scan.pdf", (⟨"", noteStr⟩ : DocInfo)) ∈
        (process_upload [⟨"scan.pdf", true, Content.doc (Except.ok "")⟩]).docs) ∧
      pyStrip ("" : String).data = []) ∧
      ("scan.pdf" ∈ (process_upload [⟨"scan.pdf", true, Content.doc (Except.ok "")⟩]).processed ∧
        (⟨"", noteStr⟩ : DocInfo).note = noteStr ∧
        ("scan.pdf", 1) ∉ (search_docs "budget"
          (process_upload [⟨"scan.pdf", true, Content.doc (Except.ok "")⟩]).docs).results) := by
  refine ⟨⟨by decide, by decide⟩, ?_⟩
  have h := c7_no_text_recorded_with_note [⟨"scan.pdf", true, Content.doc (Except.ok "")⟩]
    "scan.pdf" ⟨"", noteStr⟩ (by decide) (by decide)
  exact ⟨h.1, h.2.1, h.2.2 "budget" 1⟩

/-- C5: highlighting round-trip.  Stripping every occurrence of the
highlight markers from the highlighted output of the formatter recovers
exactly the original text, for both the Streamlit marker pair and the
Gradio marker pair, for every nonempty pattern and every text that does not
itself contain the marker-opening character; the source applies each term's
`re.sub` to the pristine sentence (never to already-marked text), so
multi-term queries with overlapping matches cannot double-wrap any span. -/
theorem c5_highlight_roundtrip (pat s : List Char) (hpat : pat ≠ [])
    (hclean : ∀ c ∈ s, c ≠ '<') :
    stripMarks appOpenM appCloseM (subHighlight appOpenM appCloseM pat s) = s ∧
      stripMarks aiOpenM aiCloseM (subHighlight aiOpenM aiCloseM pat s) = s := by
  constructor
  · exact stripMarks_subHighlight appOpenM appCloseM pat (appOpenM.drop 1) (appCloseM.drop 1)
      hpat (by decide) (by decide) (by decide) (by decide) s hclean
  · exact stripMarks_subHighlight aiOpenM aiCloseM pat (aiOpenM.drop 1) (aiCloseM.drop 1)
      hpat (by decide) (by decide) (by decide) (by decide) s hclean

theorem c5_highlight_roundtrip_witness :
    ("bud".data ≠ [] ∧ (∀ c ∈ "the Budget was approved".data, c ≠ '<')) ∧
      stripMarks appOpenM appCloseM
        (subHighlight appOpenM appCloseM "bud".data "the Budget was approved".data) =
        "the Budget was approved".data :=
  ⟨⟨by decide, by decide⟩,
    (c5_highlight_roundtrip "bud".data "the Budget was approved".data (by decide) (by decide)).1⟩

/-- C2 counterexample: the claim says every returned score lies in [0, 1].
On a single-sentence document matched by four query terms, `match_quality`
is 4 (four contextual matches over one sentence), so the relevance score of
`semantic_keyword_search` is 12809/10000 > 1 — scores are not bounded by 1. -/
theorem c2_score_above_one_counterexample :
    ∃ r ∈ semantic_keyword_search "foo foo foo foo"
        (handleFileUpload [⟨"m.pdf", 3, Content.doc (Except.ok "foo")⟩]).documents
        (handleFileUpload [⟨"m.pdf", 3, Content.doc (Except.ok "foo")⟩]).metadata 5,
      1 < r.score := by
  decide

/-- C2 (amended): every score returned by `semantic_keyword_search` is
strictly positive (a document with zero term frequency is excluded rather
than returned with a lower score), but scores may exceed 1; and under the
literal strategy (`search_docs`, which reports hits without a numeric
score), a stored document is returned iff its text is nonempty and contains
the stripped query case-insensitively — a unit that does not contain the
query is excluded. -/
theorem c2_scores_positive_literal_containment :
    (∀ (q : String) (docs : List String) (metas : List PyMeta) (k : Nat) (r : SResult),
        r ∈ semantic_keyword_search q docs metas k → 0 < r.score) ∧
      (∀ (kw : String) (D : List (String × DocInfo)),
        (D.map Prod.fst).Nodup → pyStrip kw.data ≠ [] →
        ∀ (f : String) (info : DocInfo), (f, info) ∈ D →
          ((∃ cnt, (f, cnt) ∈ (search_docs kw D).results) ↔
            (info.text.data ≠ [] ∧
              lowerL (pyStrip kw.data) <:+: lowerL info.text.data))) := by
  constructor
  · intro q docs metas k r hr
    rw [semantic_keyword_search] at hr
    by_cases h1 : q = "" ∨ docs = []
    · rw [if_pos h1] at hr
      cases hr
    · rw [if_neg h1] at hr
      by_cases h2 : queryTermsOf q = []
      · rw [if_pos h2] at hr
        cases hr
      · rw [if_neg h2] at hr
        have hr2 := (mem_sortByDesc (fun r : SResult => r.score) r _).mp
          (List.mem_of_mem_take hr)
        obtain ⟨p, _, hsd⟩ := List.mem_filterMap.mp hr2
        simp only [scoreDoc] at hsd
        split at hsd
        · cases hsd
        · rename_i hcond
          injection hsd with hre
          rw [← hre]
          apply add_pos_of_pos_of_nonneg
          apply add_pos_of_pos_of_nonneg
          · apply mul_pos _ (by norm_num : (0:ℚ) < 2/5)
            apply lt_min _ one_pos
            apply div_pos
            · exact_mod_cast Nat.pos_of_ne_zero hcond
            · have hlen : 0 < (queryTermsOf q).length := List.length_pos.mpr h2
              have : (0:ℚ) < ((queryTermsOf q).length : ℚ) := by exact_mod_cast hlen
              exact mul_pos this (by norm_num)
          · apply mul_nonneg _ (by norm_num : (0:ℚ) ≤ 3/10)
            exact le_min (div_nonneg (Nat.cast_nonneg _) (by norm_num)) zero_le_one
          · apply mul_nonneg _ (by norm_num : (0:ℚ) ≤ 3/10)
            apply div_nonneg (Nat.cast_nonneg _)
            positivity
  · intro kw D hnd hk f info hmem
    rw [search_docs]
    have hguard : ¬(kw.data = [] ∨ pyStrip kw.data = []) := by
      push_neg
      refine ⟨?_, hk⟩
      intro hke
      apply hk
      rw [hke]
      rfl
    rw [if_neg hguard]
    constructor
    · rintro ⟨cnt, hcnt⟩
      obtain ⟨⟨f', i'⟩, hmem', hdh⟩ := List.mem_filterMap.mp hcnt
      have hinv := (docHit_eq_some_iff (pyStrip kw.data) (f', i') f cnt).mp hdh
      have hf' : f = f' := hinv.1
      rw [← hf'] at hmem'
      have hieq : i' = info := mem_unique_of_nodup_keys D hnd f i' info hmem' hmem
      rw [hieq] at hinv
      exact ⟨hinv.2.1, (pyCount_pos_iff _ _).mp hinv.2.2.2⟩
    · rintro ⟨hne, hinf⟩
      have hcount : 0 < pyCount (lowerL (pyStrip kw.data)) (lowerL info.text.data) :=
        (pyCount_pos_iff _ _).mpr hinf
      refine ⟨pyCount (lowerL (pyStrip kw.data)) (lowerL info.text.data),
        List.mem_filterMap.mpr ⟨(f, info), hmem, ?_⟩⟩
      exact (docHit_eq_some_iff _ _ _ _).mpr ⟨rfl, hne, rfl, hcount⟩

theorem c2_scores_positive_literal_containment_witness :
    (({ document := "the budget", metadata := mkMeta "m.pdf" 3 "the budget",
        score := 383/1000,
        «matches» := [⟨String.mk (subHighlight appOpenM appCloseM "budget".data "the budget".data), 18/25, 0, "budget"⟩] } : SResult) ∈
        semantic_keyword_search "budget" ["the budget"] [mkMeta "m.pdf" 3 "the budget"] 5 ∧
      (0:ℚ) < 383/1000) ∧
      ((([("m.txt", (⟨"the Budget", ""⟩ : DocInfo))].map Prod.fst).Nodup ∧
        pyStrip "budget".data ≠ [] ∧
        ("m.txt", (⟨"the Budget", ""⟩ : DocInfo)) ∈ [("m.txt", (⟨"the Budget", ""⟩ : DocInfo))]) ∧
        ((∃ cnt, ("m.txt", cnt) ∈
            (search_docs "budget" [("m.txt", (⟨"the Budget", ""⟩ : DocInfo))]).results) ↔
          (("the Budget" : String).data ≠ [] ∧
            lowerL (pyStrip "budget".data) <:+: lowerL ("the Budget" : String).data))) := by
  refine ⟨⟨by decide, ?_⟩, ⟨⟨by decide, by decide, by decide⟩, ?_⟩⟩
  · exact c2_scores_positive_literal_containment.1 "budget" ["the budget"]
      [mkMeta "m.pdf" 3 "the budget"] 5
      ⟨"the budget", mkMeta "m.pdf" 3 "the budget", 383/1000,
        [⟨String.mk (subHighlight appOpenM appCloseM "budget".data "the budget".data),
          18/25, 0, "budget"⟩]⟩ (by decide)
  · exact c2_scores_positive_literal_containment.2 "budget"
      [("m.txt", ⟨"the Budget", ""⟩)] (by decide) (by decide) "m.txt" ⟨"the Budget", ""⟩
      (by decide)
